import Mathlib

/-!
Shallow embedding of `src/main/MethodAccessController.js` from
`@northscaler/method-access-controller`, together with proofs of the
behavioural properties of its policy-evaluation algorithm.

Modelling conventions:
* JS strings are Lean `String`s; the optional contextual `data` payload is a
  type parameter `α`.
* A policy entry's `roles` / `classes` / `methods` matchers are `RegExp`
  objects used only through `RegExp#test`, so they are embedded as boolean
  predicates `String → Bool`.
* The `strategy` field of an entry is a JS value that the code inspects with
  `typeof`: a boolean literal, a function, a string (a module reference passed
  to `require`), or anything else (`Strategy.other`).
* `require` is modelled as a total environment `Env α : String → Strategy α`
  mapping a module name to the value that module exports.
* The exception `E_STRATEGY_NOT_A_FUNCTION` thrown by `_interrogate` is
  modelled with the `Except Unit` monad: `.error ()` is the thrown error and
  `.ok b` is a returned boolean.
-/

namespace MAC

/-- The argument object `{ role, clazz, method, data }` handed to an access
control strategy function (a single role name, after array splitting). -/
structure Request (α : Type) where
  role : String
  clazz : String
  method : String
  data : α

/-- A JS value sitting in the `strategy` field of a policy entry (or exported
by a `require`d module): a boolean literal, a function, a string, or any other
value. -/
inductive Strategy (α : Type) where
  | bool : Bool → Strategy α
  | fn : (Request α → Bool) → Strategy α
  | str : String → Strategy α
  | other : Strategy α

/-- One `SecurityPolicyEntry`: three matchers and a strategy. -/
structure Entry (α : Type) where
  roles : String → Bool
  classes : String → Bool
  methods : String → Bool
  strategy : Strategy α

/-- The module loader `require`, mapping a module name to the value the module
exports. -/
def Env (α : Type) := String → Strategy α

variable {α : Type}

/-- The resolution step inside `_interrogate`:
`(typeof it.strategy === 'string') ? require(it.strategy) : it.strategy`. -/
def resolveStrategy (env : Env α) : Strategy α → Strategy α
  | .str s => env s
  | v => v

/-- The interrogation loop `_interrogate({entries, role, clazz, method, data,
permit})` of `MethodAccessController`: boolean literal strategies equal to
`permit` return `true` and opposite literals are skipped; otherwise the
strategy is resolved (strings through `require`) and, if it is a function, it
is invoked — returning `true` on a grant in permit mode and `false` on a
non-grant in deny mode, else continuing; a resolved non-function throws
`E_STRATEGY_NOT_A_FUNCTION` (modelled `.error ()`); an exhausted loop returns
`false`. -/
def _interrogate (env : Env α) (req : Request α) (permit : Bool) :
    List (Entry α) → Except Unit Bool
  | [] => .ok false
  | it :: rest =>
    match it.strategy with
    | .bool b => if b = permit then .ok true else _interrogate env req permit rest
    | s =>
      match resolveStrategy env s with
      | .fn f =>
        let permitted := f req
        if permit && permitted then .ok true
        else if !permit && !permitted then .ok false
        else _interrogate env req permit rest
      | _ => .error ()

/-- `_permits`: the interrogation in permit mode. -/
def _permits (env : Env α) (req : Request α) (entries : List (Entry α)) :
    Except Unit Bool :=
  _interrogate env req true entries

/-- `_denies`: the interrogation in deny mode. -/
def _denies (env : Env α) (req : Request α) (entries : List (Entry α)) :
    Except Unit Bool :=
  _interrogate env req false entries

/-- `_findEntries({role, clazz, method})`: filters the policy to the entries
whose three matchers all test positive. -/
def _findEntries (policy : List (Entry α)) (role clazz method : String) :
    List (Entry α) :=
  policy.filter fun it => it.roles role && it.classes clazz && it.methods method

/-- `RegExp#test` for the anchored pattern `/^.*$/` (no flags): `.` matches no
line terminator and `^` / `$` anchor at the very start and end of the input,
so the test succeeds exactly when the string contains no line-terminator
character (LINE FEED, CARRIAGE RETURN, LINE SEPARATOR, PARAGRAPH SEPARATOR). -/
def regexAllTest (s : String) : Bool :=
  !(s.data.any fun c =>
    c == '\n' || c == '\r' || c.toNat == 0x2028 || c.toNat == 0x2029)

/-- The default security policy from `default-security-policy`: one entry with
matchers `/^.*$/` for roles, classes and methods, and strategy `true`. -/
def DEFAULT_SECURITY_POLICY (α : Type) : List (Entry α) :=
  [{ roles := regexAllTest, classes := regexAllTest, methods := regexAllTest,
     strategy := .bool true }]

/-- The controller: it stores the policy fixed at construction (`this._policy`). -/
structure MethodAccessController (α : Type) where
  policy : List (Entry α)

/-- The constructor `new MethodAccessController(policy)`:
`policy = policy || DEFAULT_SECURITY_POLICY`. -/
def mkController (policy : Option (List (Entry α))) : MethodAccessController α :=
  ⟨policy.getD (DEFAULT_SECURITY_POLICY α)⟩

/-- The `role` argument of `permits` / `denies`: either a single role-name
string or an array of role names. -/
inductive RoleArg where
  | single : String → RoleArg
  | array : List String → RoleArg

/-- The single-role path of `denies`: interrogate the matched entries in deny
mode. -/
def MethodAccessController.deniesSingle (c : MethodAccessController α)
    (env : Env α) (role clazz method : String) (data : α) : Except Unit Bool :=
  _denies env ⟨role, clazz, method, data⟩ (_findEntries c.policy role clazz method)

/-- `denies({role, clazz, method, data})`: on an array role, map `denies` over
the elements and test whether some result is `true`; on a single role, run the
deny-mode interrogation of the matched entries. -/
def MethodAccessController.denies (c : MethodAccessController α) (env : Env α)
    (role : RoleArg) (clazz method : String) (data : α) : Except Unit Bool :=
  match role with
  | .array rs => do
    let results ← rs.mapM fun it => c.deniesSingle env it clazz method data
    pure (results.contains true)
  | .single r => c.deniesSingle env r clazz method data

/-- The single-role path of `permits`:
`!this._denies({entries, ...}) && this._permits({entries, ...})` with JS
short-circuiting — the permit-mode interrogation runs only when the deny-mode
interrogation returned `false`. -/
def MethodAccessController.permitsSingle (c : MethodAccessController α)
    (env : Env α) (role clazz method : String) (data : α) : Except Unit Bool := do
  let entries := _findEntries c.policy role clazz method
  let d ← _denies env ⟨role, clazz, method, data⟩ entries
  if d then pure false else _permits env ⟨role, clazz, method, data⟩ entries

/-- `permits({role, clazz, method, data})`: on an array role,
`!role.map(denies).includes(true) && role.map(permits).includes(true)` with JS
short-circuiting of `&&`; on a single role, the single-role path. -/
def MethodAccessController.permits (c : MethodAccessController α) (env : Env α)
    (role : RoleArg) (clazz method : String) (data : α) : Except Unit Bool :=
  match role with
  | .array rs => do
    let ds ← rs.mapM fun it => c.deniesSingle env it clazz method data
    if ds.contains true then pure false
    else do
      let ps ← rs.mapM fun it => c.permitsSingle env it clazz method data
      pure (ps.contains true)
  | .single r => c.permitsSingle env r clazz method data

/-- Whether a strategy value is a boolean literal. -/
def isBoolLit : Strategy α → Bool
  | .bool _ => true
  | _ => false

/-- Whether a strategy value is a function. -/
def isFn : Strategy α → Bool
  | .fn _ => true
  | _ => false

/-- Whether the interrogation loop in the given mode passes over this entry
without stopping: a boolean literal opposite to the mode, or a resolved
function whose verdict is not decisive for the mode. -/
def continuesEntry (env : Env α) (req : Request α) (permit : Bool)
    (e : Entry α) : Bool :=
  match e.strategy with
  | .bool b => b != permit
  | s =>
    match resolveStrategy env s with
    | .fn f => f req == !permit
    | _ => false

/-- Whether an entry makes the interrogation throw when reached: its strategy
is not a boolean literal and does not resolve (through `require` for strings)
to a function. -/
def badStrategy (env : Env α) (e : Entry α) : Bool :=
  !(isBoolLit e.strategy) && !(isFn (resolveStrategy env e.strategy))

instance : DecidableEq (Except Unit Bool) := fun a b =>
  match a, b with
  | .ok x, .ok y =>
    match decEq x y with
    | isTrue h => isTrue (h ▸ rfl)
    | isFalse h => isFalse fun hx => h (Except.ok.inj hx)
  | .error (), .error () => isTrue rfl
  | .ok _, .error _ => isFalse fun hx => Except.noConfusion hx
  | .error _, .ok _ => isFalse fun hx => Except.noConfusion hx

theorem bind_ok_unit {β γ : Type} (x : β) (f : β → Except Unit γ) :
    (Except.ok x : Except Unit β) >>= f = f x := rfl

theorem bind_error_unit {β γ : Type} (f : β → Except Unit γ) :
    (Except.error () : Except Unit β) >>= f = .error () := rfl

theorem pure_eq_ok {β : Type} (x : β) : (pure x : Except Unit β) = .ok x := rfl

theorem contains_true_singleton (b : Bool) : [b].contains true = b := by
  cases b <;> rfl

theorem interrogate_nil (env : Env α) (req : Request α) (m : Bool) :
    _interrogate env req m ([] : List (Entry α)) = .ok false := rfl

theorem interrogate_cons_bool (env : Env α) (req : Request α) (m : Bool)
    (mr mc mm : String → Bool) (b : Bool) (rest : List (Entry α)) :
    _interrogate env req m (⟨mr, mc, mm, .bool b⟩ :: rest) =
      if b = m then .ok true else _interrogate env req m rest := rfl

theorem interrogate_cons_fn_direct (env : Env α) (req : Request α) (m : Bool)
    (mr mc mm : String → Bool) (f : Request α → Bool) (rest : List (Entry α)) :
    _interrogate env req m (⟨mr, mc, mm, .fn f⟩ :: rest) =
      if m && f req then .ok true
      else if !m && !(f req) then .ok false
      else _interrogate env req m rest := rfl

theorem interrogate_cons_str (env : Env α) (req : Request α) (m : Bool)
    (mr mc mm : String → Bool) (nm : String) (rest : List (Entry α)) :
    _interrogate env req m (⟨mr, mc, mm, .str nm⟩ :: rest) =
      match env nm with
      | .fn f =>
        if m && f req then .ok true
        else if !m && !(f req) then .ok false
        else _interrogate env req m rest
      | _ => .error () := rfl

theorem interrogate_cons_other (env : Env α) (req : Request α) (m : Bool)
    (mr mc mm : String → Bool) (rest : List (Entry α)) :
    _interrogate env req m (⟨mr, mc, mm, .other⟩ :: rest) = .error () := rfl

theorem interrogate_cons_continues (env : Env α) (req : Request α) (m : Bool)
    (e : Entry α) (rest : List (Entry α))
    (h : continuesEntry env req m e = true) :
    _interrogate env req m (e :: rest) = _interrogate env req m rest := by
  obtain ⟨mr, mc, mm, s⟩ := e
  cases s with
  | bool b =>
    simp only [continuesEntry, bne_iff_ne, ne_eq] at h
    rw [interrogate_cons_bool, if_neg h]
  | fn f =>
    simp only [continuesEntry, resolveStrategy, beq_iff_eq] at h
    rw [interrogate_cons_fn_direct, h]
    cases m <;> simp
  | str nm =>
    simp only [continuesEntry, resolveStrategy] at h
    rw [interrogate_cons_str]
    cases henv : env nm with
    | fn f =>
      rw [henv] at h
      simp only [beq_iff_eq] at h
      dsimp only
      rw [h]
      cases m <;> simp
    | bool b => rw [henv] at h; simp at h
    | str s => rw [henv] at h; simp at h
    | other => rw [henv] at h; simp at h
  | other => simp [continuesEntry, resolveStrategy] at h

theorem interrogate_cons_bad (env : Env α) (req : Request α) (m : Bool)
    (e : Entry α) (rest : List (Entry α)) (h : badStrategy env e = true) :
    _interrogate env req m (e :: rest) = .error () := by
  obtain ⟨mr, mc, mm, s⟩ := e
  cases s with
  | bool b => simp [badStrategy, isBoolLit] at h
  | fn f => simp [badStrategy, isFn, resolveStrategy] at h
  | str nm =>
    simp only [badStrategy, isBoolLit, isFn, resolveStrategy, Bool.not_false,
      Bool.true_and, Bool.not_eq_true'] at h
    rw [interrogate_cons_str]
    cases henv : env nm with
    | fn f => rw [henv] at h; simp [isFn] at h
    | bool b => rfl
    | str s => rfl
    | other => rfl
  | other => exact interrogate_cons_other env req m mr mc mm rest

theorem continues_not_bad (env : Env α) (req : Request α) (m : Bool)
    (e : Entry α) (h : continuesEntry env req m e = true) :
    badStrategy env e = false := by
  obtain ⟨mr, mc, mm, s⟩ := e
  cases s with
  | bool b => simp [badStrategy, isBoolLit]
  | fn f => simp [badStrategy, isFn, resolveStrategy]
  | str nm =>
    simp only [continuesEntry, resolveStrategy] at h
    cases henv : env nm with
    | fn f => simp [badStrategy, isBoolLit, isFn, resolveStrategy, henv]
    | bool b => rw [henv] at h; simp at h
    | str s => rw [henv] at h; simp at h
    | other => rw [henv] at h; simp at h
  | other => simp [continuesEntry, resolveStrategy] at h

theorem interrogate_cons_decisive (env : Env α) (req : Request α) (m : Bool)
    (e : Entry α) (rest : List (Entry α))
    (hc : continuesEntry env req m e = false)
    (hb : badStrategy env e = false) :
    ∃ v, _interrogate env req m (e :: rest) = .ok v := by
  obtain ⟨mr, mc, mm, s⟩ := e
  cases s with
  | bool b =>
    simp only [continuesEntry, bne_eq_false_iff_eq] at hc
    exact ⟨true, by rw [interrogate_cons_bool, if_pos hc]⟩
  | fn f =>
    simp only [continuesEntry, resolveStrategy, beq_eq_false_iff_ne, ne_eq,
      Bool.not_eq_not] at hc
    refine ⟨m, ?_⟩
    rw [interrogate_cons_fn_direct, hc]
    cases m <;> simp
  | str nm =>
    simp only [continuesEntry, resolveStrategy] at hc
    simp only [badStrategy, isBoolLit, isFn, resolveStrategy, Bool.not_false,
      Bool.true_and, Bool.not_eq_true'] at hb
    cases henv : env nm with
    | fn f =>
      rw [henv] at hc
      simp only [beq_eq_false_iff_ne, ne_eq, Bool.not_eq_not] at hc
      refine ⟨m, ?_⟩
      rw [interrogate_cons_str, henv]
      dsimp only
      rw [hc]
      cases m <;> simp
    | bool b => rw [henv] at hb; simp [isFn] at hb
    | str s => rw [henv] at hb; simp [isFn] at hb
    | other => rw [henv] at hb; simp [isFn] at hb
  | other =>
    simp [badStrategy, isBoolLit, isFn, resolveStrategy] at hb

theorem interrogate_error_iff (env : Env α) (req : Request α) (m : Bool)
    (entries : List (Entry α)) :
    _interrogate env req m entries = .error () ↔
      ∃ pre e post, entries = pre ++ e :: post ∧
        (∀ e' ∈ pre, continuesEntry env req m e' = true) ∧
        badStrategy env e = true := by
  induction entries with
  | nil =>
    rw [interrogate_nil]
    constructor
    · intro h; exact absurd h (by simp)
    · rintro ⟨pre, e, post, heq, -, -⟩
      exact absurd heq (by simp)
  | cons a rest ih =>
    by_cases hbad : badStrategy env a = true
    · rw [interrogate_cons_bad env req m a rest hbad]
      exact iff_of_true rfl ⟨[], a, rest, rfl, by simp, hbad⟩
    · rw [Bool.not_eq_true] at hbad
      by_cases hcont : continuesEntry env req m a = true
      · rw [interrogate_cons_continues env req m a rest hcont, ih]
        constructor
        · rintro ⟨pre, e, post, heq, hclean, hb⟩
          refine ⟨a :: pre, e, post, by rw [heq, List.cons_append], ?_, hb⟩
          intro e' he'
          rcases List.mem_cons.mp he' with h1 | h2
          · rw [h1]; exact hcont
          · exact hclean e' h2
        · rintro ⟨pre, e, post, heq, hclean, hb⟩
          cases pre with
          | nil =>
            simp only [List.nil_append, List.cons.injEq] at heq
            rw [← heq.1] at hb
            rw [hbad] at hb
            exact absurd hb (by simp)
          | cons x pre' =>
            simp only [List.cons_append, List.cons.injEq] at heq
            refine ⟨pre', e, post, heq.2, ?_, hb⟩
            intro e' he'
            exact hclean e' (List.mem_cons_of_mem x he')
      · rw [Bool.not_eq_true] at hcont
        obtain ⟨v, hv⟩ := interrogate_cons_decisive env req m a rest hcont hbad
        rw [hv]
        refine iff_of_false (by simp) ?_
        rintro ⟨pre, e, post, heq, hclean, hb⟩
        cases pre with
        | nil =>
          simp only [List.nil_append, List.cons.injEq] at heq
          rw [← heq.1] at hb
          rw [hbad] at hb
          exact absurd hb (by simp)
        | cons x pre' =>
          simp only [List.cons_append, List.cons.injEq] at heq
          have := hclean x (List.mem_cons_self x pre')
          rw [← heq.1, hcont] at this
          exact absurd this (by simp)

theorem interrogate_deny_ok_true_iff (env : Env α) (req : Request α)
    (entries : List (Entry α))
    (h : ∀ e ∈ entries, (isBoolLit e.strategy || isFn e.strategy) = true) :
    _interrogate env req false entries = .ok true ↔
      ∃ pre e post, entries = pre ++ e :: post ∧ e.strategy = .bool false ∧
        ∀ e' ∈ pre, continuesEntry env req false e' = true := by
  induction entries with
  | nil =>
    rw [interrogate_nil]
    refine iff_of_false (by simp) ?_
    rintro ⟨pre, e, post, heq, -, -⟩
    exact absurd heq (by simp)
  | cons a rest ih =>
    have ha := h a (List.mem_cons_self a rest)
    have hrest : ∀ e ∈ rest, (isBoolLit e.strategy || isFn e.strategy) = true :=
      fun e he => h e (List.mem_cons_of_mem a he)
    obtain ⟨mr, mc, mm, s⟩ := a
    cases s with
    | bool b =>
      cases b with
      | false =>
        rw [interrogate_cons_bool]
        refine iff_of_true (by simp) ⟨[], ⟨mr, mc, mm, .bool false⟩, rest, rfl, rfl, by simp⟩
      | true =>
        have hcont : continuesEntry env req false ⟨mr, mc, mm, Strategy.bool true⟩ = true := by
          simp [continuesEntry]
        rw [interrogate_cons_continues env req false _ rest hcont, ih hrest]
        constructor
        · rintro ⟨pre, e, post, heq, hlit, hclean⟩
          refine ⟨⟨mr, mc, mm, Strategy.bool true⟩ :: pre, e, post,
            by rw [heq, List.cons_append], hlit, ?_⟩
          intro e' he'
          rcases List.mem_cons.mp he' with h1 | h2
          · rw [h1]; exact hcont
          · exact hclean e' h2
        · rintro ⟨pre, e, post, heq, hlit, hclean⟩
          cases pre with
          | nil =>
            simp only [List.nil_append, List.cons.injEq] at heq
            rw [← heq.1] at hlit
            exact absurd hlit (by simp)
          | cons x pre' =>
            simp only [List.cons_append, List.cons.injEq] at heq
            refine ⟨pre', e, post, heq.2, hlit, ?_⟩
            intro e' he'
            exact hclean e' (List.mem_cons_of_mem x he')
    | fn f =>
      cases hf : f req with
      | false =>
        have : _interrogate env req false (⟨mr, mc, mm, .fn f⟩ :: rest) = .ok false := by
          rw [interrogate_cons_fn_direct]
          simp [hf]
        rw [this]
        refine iff_of_false (by simp) ?_
        rintro ⟨pre, e, post, heq, hlit, hclean⟩
        cases pre with
        | nil =>
          simp only [List.nil_append, List.cons.injEq] at heq
          rw [← heq.1] at hlit
          exact absurd hlit (by simp)
        | cons x pre' =>
          simp only [List.cons_append, List.cons.injEq] at heq
          have := hclean x (List.mem_cons_self x pre')
          rw [← heq.1] at this
          simp only [continuesEntry, resolveStrategy] at this
          rw [hf] at this
          exact absurd this (by simp)
      | true =>
        have hcont : continuesEntry env req false ⟨mr, mc, mm, Strategy.fn f⟩ = true := by
          simp [continuesEntry, resolveStrategy, hf]
        rw [interrogate_cons_continues env req false _ rest hcont, ih hrest]
        constructor
        · rintro ⟨pre, e, post, heq, hlit, hclean⟩
          refine ⟨⟨mr, mc, mm, Strategy.fn f⟩ :: pre, e, post,
            by rw [heq, List.cons_append], hlit, ?_⟩
          intro e' he'
          rcases List.mem_cons.mp he' with h1 | h2
          · rw [h1]; exact hcont
          · exact hclean e' h2
        · rintro ⟨pre, e, post, heq, hlit, hclean⟩
          cases pre with
          | nil =>
            simp only [List.nil_append, List.cons.injEq] at heq
            rw [← heq.1] at hlit
            exact absurd hlit (by simp)
          | cons x pre' =>
            simp only [List.cons_append, List.cons.injEq] at heq
            refine ⟨pre', e, post, heq.2, hlit, ?_⟩
            intro e' he'
            exact hclean e' (List.mem_cons_of_mem x he')
    | str nm => simp [isBoolLit, isFn] at ha
    | other => simp [isBoolLit, isFn] at ha

theorem interrogate_deny_fn_false_shield (env : Env α) (req : Request α)
    (pre : List (Entry α)) (e : Entry α) (post : List (Entry α))
    (f : Request α → Bool)
    (hclean : ∀ e' ∈ pre, continuesEntry env req false e' = true)
    (hfn : e.strategy = .fn f) (hf : f req = false) :
    _interrogate env req false (pre ++ e :: post) = .ok false := by
  induction pre with
  | nil =>
    obtain ⟨mr, mc, mm, s⟩ := e
    dsimp only at hfn
    subst hfn
    rw [List.nil_append, interrogate_cons_fn_direct]
    simp [hf]
  | cons x xs ih =>
    rw [List.cons_append,
      interrogate_cons_continues env req false x _ (hclean x (List.mem_cons_self x xs))]
    exact ih fun e' he' => hclean e' (List.mem_cons_of_mem x he')

theorem mapM_ok_of_forall (g : String → Except Unit Bool) (d : String → Bool)
    (rs : List String) (h : ∀ r ∈ rs, g r = .ok (d r)) :
    rs.mapM g = .ok (rs.map d) := by
  induction rs with
  | nil => rfl
  | cons r rs ih =>
    rw [List.mapM_cons, h r (List.mem_cons_self r rs),
      ih fun r' hr' => h r' (List.mem_cons_of_mem r hr')]
    rfl

theorem contains_true_map (d : String → Bool) (rs : List String) :
    (rs.map d).contains true = rs.any d := by
  induction rs with
  | nil => rfl
  | cons r rs ih =>
    rw [List.map_cons, List.any_cons, ← ih]
    cases d r <;> simp [List.contains_cons]

theorem all_not_eq_not_any (d : String → Bool) (rs : List String) :
    (rs.all fun r => !(d r)) = !(rs.any d) := by
  induction rs with
  | nil => rfl
  | cons r rs ih => rw [List.all_cons, List.any_cons, ih]; cases d r <;> simp

theorem deniesSingle_def (c : MethodAccessController α) (env : Env α)
    (r clazz method : String) (data : α) :
    c.deniesSingle env r clazz method data =
      _denies env ⟨r, clazz, method, data⟩ (_findEntries c.policy r clazz method) := rfl

theorem mapM_singleton (g : String → Except Unit Bool) (r : String) :
    [r].mapM g = g r >>= fun x => pure [x] := by
  rw [List.mapM_cons]
  cases g r with
  | error e => rfl
  | ok b => rfl

theorem bind_singleton_contains (x : Except Unit Bool) :
    ((x >>= fun b => pure [b]) >>= fun ps => pure (ps.contains true)) = x := by
  cases x with
  | error e => cases e; rfl
  | ok b => cases b <;> rfl

theorem permitsSingle_cases (c : MethodAccessController α) (env : Env α)
    (r clazz method : String) (data : α) :
    c.permitsSingle env r clazz method data =
      match c.deniesSingle env r clazz method data with
      | .error e => .error e
      | .ok true => .ok false
      | .ok false =>
        _permits env ⟨r, clazz, method, data⟩ (_findEntries c.policy r clazz method) := by
  simp only [MethodAccessController.permitsSingle]
  rw [← deniesSingle_def]
  cases c.deniesSingle env r clazz method data with
  | error e => rfl
  | ok b => cases b <;> rfl

/-- A `require` environment whose modules all export a non-callable,
non-boolean value; used only in concrete witnesses. -/
def wEnv : Env Unit := fun _ => Strategy.other

/-- A concrete request used in concrete witnesses. -/
def wReq : Request Unit := ⟨"a", "C", "m", ()⟩

/-- A matcher that accepts every string, used in concrete witnesses. -/
def allPass : String → Bool := fun _ => true

/-- An all-matching entry with literal strategy `true`. -/
def entryTrue : Entry Unit := ⟨allPass, allPass, allPass, .bool true⟩

/-- An all-matching entry with literal strategy `false`. -/
def entryFalse : Entry Unit := ⟨allPass, allPass, allPass, .bool false⟩

/-- An all-matching entry with a function strategy that always returns `false`. -/
def entryFnFalse : Entry Unit := ⟨allPass, allPass, allPass, .fn fun _ => false⟩

/-- C1: deny overrides grant — for every security policy and every request
(single role string or array of roles, any class, method and data), if
`permits` returns `true` then `denies` returns `false` for the same request;
the two are never both `true`. -/
theorem C1_deny_overrides_grant (c : MethodAccessController α) (env : Env α)
    (role : RoleArg) (clazz method : String) (data : α)
    (h : c.permits env role clazz method data = .ok true) :
    c.denies env role clazz method data = .ok false := by
  cases role with
  | single r =>
    have hp : c.permitsSingle env r clazz method data = .ok true := h
    show c.deniesSingle env r clazz method data = .ok false
    rw [permitsSingle_cases] at hp
    cases hd : c.deniesSingle env r clazz method data with
    | error e =>
      rw [hd] at hp
      exact absurd hp (by simp)
    | ok b =>
      cases b with
      | false => rfl
      | true =>
        rw [hd] at hp
        exact absurd hp (by simp)
  | array rs =>
    show (do
        let results ← rs.mapM fun it => c.deniesSingle env it clazz method data
        pure (results.contains true) : Except Unit Bool) = .ok false
    have hp : (do
        let ds ← rs.mapM fun it => c.deniesSingle env it clazz method data
        if ds.contains true then pure false
        else do
          let ps ← rs.mapM fun it => c.permitsSingle env it clazz method data
          pure (ps.contains true) : Except Unit Bool) = .ok true := h
    cases hm : rs.mapM fun it => c.deniesSingle env it clazz method data with
    | error e =>
      cases e
      rw [hm, bind_error_unit] at hp
      exact absurd hp (by simp)
    | ok ds =>
      rw [hm, bind_ok_unit] at hp
      cases hc : ds.contains true with
      | true =>
        simp only [hc, if_true, pure_eq_ok] at hp
        exact absurd hp (by simp)
      | false =>
        show Except.ok (ds.contains true) = Except.ok false
        rw [hc]

/-- C1 witness: with the default policy, role `Admin` on `Foo#bar` is
permitted, and the theorem yields that it is not denied. -/
theorem C1_deny_overrides_grant_witness :
    (mkController (α := Unit) none).permits wEnv (.single "Admin") "Foo" "bar" ()
      = .ok true ∧
    (mkController (α := Unit) none).denies wEnv (.single "Admin") "Foo" "bar" ()
      = .ok false :=
  ⟨by decide, C1_deny_overrides_grant _ _ _ _ _ _ (by decide)⟩

/-- C10: singleton role array collapse — `permits` and `denies` called with the
one-element array `[r]` return exactly what they return for the single role
string `r` (including a thrown strategy error). -/
theorem C10_singleton_role_collapse (c : MethodAccessController α) (env : Env α)
    (r clazz method : String) (data : α) :
    c.permits env (.array [r]) clazz method data =
      c.permits env (.single r) clazz method data ∧
    c.denies env (.array [r]) clazz method data =
      c.denies env (.single r) clazz method data := by
  constructor
  · show (do
        let ds ← [r].mapM fun it => c.deniesSingle env it clazz method data
        if ds.contains true then pure false
        else do
          let ps ← [r].mapM fun it => c.permitsSingle env it clazz method data
          pure (ps.contains true) : Except Unit Bool)
      = c.permitsSingle env r clazz method data
    rw [mapM_singleton, permitsSingle_cases]
    cases hd : c.deniesSingle env r clazz method data with
    | error e => rfl
    | ok b =>
      cases b with
      | true => rfl
      | false =>
        show (do
            let ps ← [r].mapM fun it => c.permitsSingle env it clazz method data
            pure (ps.contains true) : Except Unit Bool)
          = _permits env ⟨r, clazz, method, data⟩ (_findEntries c.policy r clazz method)
        rw [mapM_singleton, bind_singleton_contains, permitsSingle_cases, hd]
  · show (do
        let results ← [r].mapM fun it => c.deniesSingle env it clazz method data
        pure (results.contains true) : Except Unit Bool)
      = c.deniesSingle env r clazz method data
    rw [mapM_singleton, bind_singleton_contains]

/-- C2: dynamic-strategy asymmetry — when interrogation reaches an entry whose
strategy is a function, in permit mode a returned `true` is decisive (the
interrogation answers `true`) and a returned `false` continues to the next
entry; in deny mode a returned `false` is the decisive deny outcome,
terminating the interrogation at that entry (later entries are never
examined), while a returned `true` is not decisive for denial and evaluation
continues. -/
theorem C2_dynamic_strategy_asymmetry (env : Env α) (req : Request α)
    (e : Entry α) (f : Request α → Bool) (rest : List (Entry α))
    (h : e.strategy = .fn f) :
    (f req = true → _interrogate env req true (e :: rest) = .ok true) ∧
    (f req = false →
      _interrogate env req true (e :: rest) = _interrogate env req true rest) ∧
    (f req = false → _interrogate env req false (e :: rest) = .ok false) ∧
    (f req = true →
      _interrogate env req false (e :: rest) = _interrogate env req false rest) := by
  obtain ⟨mr, mc, mm, s⟩ := e
  have h' : s = Strategy.fn f := h
  subst h'
  refine ⟨fun hf => ?_, fun hf => ?_, fun hf => ?_, fun hf => ?_⟩ <;>
    rw [interrogate_cons_fn_direct, hf] <;> simp

/-- C2 witness: a function strategy returning `true` is decisive in permit
mode, and in deny mode evaluation continues past it to the (empty) rest. -/
theorem C2_dynamic_strategy_asymmetry_witness :
    _interrogate wEnv wReq true
        [⟨allPass, allPass, allPass, .fn fun r => r.role == "a"⟩] = .ok true ∧
    _interrogate wEnv wReq false
        [⟨allPass, allPass, allPass, .fn fun r => r.role == "a"⟩]
      = _interrogate wEnv wReq false [] :=
  ⟨(C2_dynamic_strategy_asymmetry wEnv wReq
      ⟨allPass, allPass, allPass, .fn fun r => r.role == "a"⟩
      (fun r => r.role == "a") [] rfl).1 (by decide),
   (C2_dynamic_strategy_asymmetry wEnv wReq
      ⟨allPass, allPass, allPass, .fn fun r => r.role == "a"⟩
      (fun r => r.role == "a") [] rfl).2.2.2 (by decide)⟩

/-- C5: literal decisiveness and default deny — in either mode, a boolean
literal strategy equal to the mode's flag makes the interrogation return
`true` at once; a literal opposite to the mode is skipped and never
short-circuits that mode's query; and an interrogation that passes over every
entry without a decisive one (in particular over the empty list) returns
`false`. -/
theorem C5_literal_decisiveness (env : Env α) (req : Request α) (m : Bool)
    (e : Entry α) (b : Bool) (rest entries : List (Entry α)) :
    (e.strategy = .bool b → b = m → _interrogate env req m (e :: rest) = .ok true) ∧
    (e.strategy = .bool b → b ≠ m →
      _interrogate env req m (e :: rest) = _interrogate env req m rest) ∧
    _interrogate env req m ([] : List (Entry α)) = .ok false ∧
    ((∀ e' ∈ entries, continuesEntry env req m e' = true) →
      _interrogate env req m entries = .ok false) := by
  refine ⟨?_, ?_, interrogate_nil env req m, ?_⟩
  · intro hs hbm
    obtain ⟨mr, mc, mm, s⟩ := e
    have h' : s = Strategy.bool b := hs
    subst h'
    rw [interrogate_cons_bool, if_pos hbm]
  · intro hs hbm
    obtain ⟨mr, mc, mm, s⟩ := e
    have h' : s = Strategy.bool b := hs
    subst h'
    rw [interrogate_cons_bool, if_neg hbm]
  · induction entries with
    | nil => intro _; exact interrogate_nil env req m
    | cons a rest' ih =>
      intro hall
      rw [interrogate_cons_continues env req m a rest'
        (hall a (List.mem_cons_self a rest'))]
      exact ih fun e' he' => hall e' (List.mem_cons_of_mem a he')

/-- C5 witness: a matching literal `true` is decisive for the permit query, and
a list holding only the opposite literal is exhausted and yields `false`. -/
theorem C5_literal_decisiveness_witness :
    _interrogate wEnv wReq true [entryTrue] = .ok true ∧
    _interrogate wEnv wReq true [entryFalse] = .ok false :=
  ⟨(C5_literal_decisiveness wEnv wReq true entryTrue true [] []).1 rfl rfl,
   (C5_literal_decisiveness wEnv wReq true entryTrue true [] [entryFalse]).2.2.2
     (by decide)⟩

/-- C3: single-role permits composition — for a single (non-array) role,
`permits` is `true` exactly when the deny-mode interrogation of the matched
entries returns `false` and the permit-mode interrogation returns `true`; the
deny check runs first, so a found deny yields `false` without evaluating the
permit interrogation, and a deny-side error propagates without evaluating the
permit interrogation. -/
theorem C3_single_role_permits_composition (c : MethodAccessController α)
    (env : Env α) (r clazz method : String) (data : α) :
    (c.permits env (.single r) clazz method data = .ok true ↔
      _denies env ⟨r, clazz, method, data⟩ (_findEntries c.policy r clazz method)
          = .ok false ∧
      _permits env ⟨r, clazz, method, data⟩ (_findEntries c.policy r clazz method)
          = .ok true) ∧
    (_denies env ⟨r, clazz, method, data⟩ (_findEntries c.policy r clazz method)
        = .ok true →
      c.permits env (.single r) clazz method data = .ok false) ∧
    (_denies env ⟨r, clazz, method, data⟩ (_findEntries c.policy r clazz method)
        = .error () →
      c.permits env (.single r) clazz method data = .error ()) := by
  have hps : c.permits env (.single r) clazz method data
      = c.permitsSingle env r clazz method data := rfl
  rw [hps, permitsSingle_cases, ← deniesSingle_def]
  cases hd : c.deniesSingle env r clazz method data with
  | error e => cases e; simp
  | ok b => cases b <;> simp

/-- C3 witness: with a policy whose only matching entry statically denies, the
deny-first short circuit makes `permits` return `false`. -/
theorem C3_single_role_permits_composition_witness :
    (MethodAccessController.mk [entryFalse]).permits wEnv (.single "a") "C" "m" ()
      = .ok false :=
  (C3_single_role_permits_composition ⟨[entryFalse]⟩ wEnv "a" "C" "m" ()).2.1
    (by decide)

/-- C4: multi-role resolution — when every element role's single-role `denies`
and `permits` evaluate without error, `denies` of the role array is `true` iff
some element role is denied, and `permits` of the array is `true` iff no
element role is denied and at least one element role is permitted; on the
empty role array `denies` and `permits` are both `false`. -/
theorem C4_multi_role_resolution (c : MethodAccessController α) (env : Env α)
    (rs : List String) (clazz method : String) (data : α) (d p : String → Bool)
    (hd : ∀ r ∈ rs, c.deniesSingle env r clazz method data = .ok (d r))
    (hp : ∀ r ∈ rs, c.permitsSingle env r clazz method data = .ok (p r)) :
    c.denies env (.array rs) clazz method data = .ok (rs.any d) ∧
    c.permits env (.array rs) clazz method data
      = .ok ((rs.all fun r => !(d r)) && rs.any p) ∧
    c.denies env (.array ([] : List String)) clazz method data = .ok false ∧
    c.permits env (.array ([] : List String)) clazz method data = .ok false := by
  have hmd : (rs.mapM fun it => c.deniesSingle env it clazz method data)
      = .ok (rs.map d) := mapM_ok_of_forall _ d rs hd
  have hmp : (rs.mapM fun it => c.permitsSingle env it clazz method data)
      = .ok (rs.map p) := mapM_ok_of_forall _ p rs hp
  refine ⟨?_, ?_, rfl, rfl⟩
  · show (do
        let results ← rs.mapM fun it => c.deniesSingle env it clazz method data
        pure (results.contains true) : Except Unit Bool) = .ok (rs.any d)
    rw [hmd, bind_ok_unit, contains_true_map, pure_eq_ok]
  · show (do
        let ds ← rs.mapM fun it => c.deniesSingle env it clazz method data
        if ds.contains true then pure false
        else do
          let ps ← rs.mapM fun it => c.permitsSingle env it clazz method data
          pure (ps.contains true) : Except Unit Bool)
      = .ok ((rs.all fun r => !(d r)) && rs.any p)
    rw [hmd, bind_ok_unit, contains_true_map, all_not_eq_not_any]
    cases ha : rs.any d with
    | true => simp [pure_eq_ok]
    | false =>
      rw [hmp, bind_ok_unit, contains_true_map]
      simp [pure_eq_ok]

/-- A policy that statically denies role `Dummy` and statically permits role
`Teller`, used in concrete witnesses. -/
def tellerDummyPolicy : List (Entry Unit) :=
  [⟨fun s => s == "Dummy", allPass, allPass, .bool false⟩,
   ⟨fun s => s == "Teller", allPass, allPass, .bool true⟩]

/-- C4 witness: with roles `["Teller", "Dummy"]`, the denied `Dummy` vetoes the
whole request even though `Teller` alone would be permitted. -/
theorem C4_multi_role_resolution_witness :
    (MethodAccessController.mk tellerDummyPolicy).denies wEnv
        (.array ["Teller", "Dummy"]) "Foo" "bar" () = .ok true ∧
    (MethodAccessController.mk tellerDummyPolicy).permits wEnv
        (.array ["Teller", "Dummy"]) "Foo" "bar" () = .ok false := by
  have h := C4_multi_role_resolution ⟨tellerDummyPolicy⟩ wEnv ["Teller", "Dummy"]
    "Foo" "bar" () (fun r => r == "Dummy") (fun r => r == "Teller")
    (by decide) (by decide)
  exact ⟨by rw [h.1]; decide, by rw [h.2.1]; decide⟩

/-- C7: matcher correctness — `_findEntries` returns exactly the policy entries
whose three matchers all accept the request's strings, as a subsequence of the
policy (original order preserved), and the empty sequence when no entry
matches. -/
theorem C7_find_entries_contract (policy : List (Entry α))
    (role clazz method : String) :
    (∀ e : Entry α, e ∈ _findEntries policy role clazz method ↔
      e ∈ policy ∧ e.roles role = true ∧ e.classes clazz = true ∧
        e.methods method = true) ∧
    (_findEntries policy role clazz method).Sublist policy ∧
    ((∀ e ∈ policy, ¬(e.roles role = true ∧ e.classes clazz = true ∧
        e.methods method = true)) →
      _findEntries policy role clazz method = []) := by
  refine ⟨?_, List.filter_sublist _, ?_⟩
  · intro e
    simp [_findEntries, List.mem_filter, Bool.and_eq_true, and_assoc]
  · intro h
    simp only [_findEntries]
    rw [List.filter_eq_nil_iff]
    intro a ha hc
    exact h a ha (by simpa [Bool.and_eq_true, and_assoc] using hc)

/-- An entry matching only the role `Manager`, used in concrete witnesses. -/
def managerEntry : Entry Unit :=
  ⟨fun s => s == "Manager", allPass, allPass, .bool true⟩

/-- C7 witness: an all-matching entry is found, and a policy with no matching
entry yields the empty sequence rather than failing. -/
theorem C7_find_entries_contract_witness :
    entryTrue ∈ _findEntries [entryTrue] "a" "C" "m" ∧
    _findEntries [managerEntry] "x" "C" "m" = [] :=
  ⟨((C7_find_entries_contract [entryTrue] "a" "C" "m").1 entryTrue).mpr
      ⟨List.mem_singleton.mpr rfl, rfl, rfl, rfl⟩,
   (C7_find_entries_contract [managerEntry] "x" "C" "m").2.2 (by decide)⟩

/-- C6 counterexample: the claim that with no policy supplied every request is
permitted fails for a role string containing a line terminator — the default
entry's matcher `/^.*$/` does not match `"a\nb"`, so `permits` returns
`false`, not `true`. -/
theorem C6_default_policy_counterexample :
    (mkController (α := Unit) none).permits wEnv (.single "a\nb") "Foo" "bar" ()
      = .ok false := by decide

/-- C6 (amended): with no policy supplied, `denies` is `false` for every
single-role request, and `permits` is `true` for every request whose role,
class and method strings are matched by the default entry's pattern `/^.*$/`,
i.e. contain no line-terminator character. -/
theorem C6_default_allow_all (env : Env α) (role clazz method : String)
    (data : α) (hr : regexAllTest role = true) (hc : regexAllTest clazz = true)
    (hm : regexAllTest method = true) :
    (mkController (α := α) none).permits env (.single role) clazz method data
      = .ok true ∧
    ∀ (role' clazz' method' : String) (data' : α),
      (mkController (α := α) none).denies env (.single role') clazz' method' data'
        = .ok false := by
  constructor
  · have hfind : _findEntries (DEFAULT_SECURITY_POLICY α) role clazz method
        = DEFAULT_SECURITY_POLICY α := by
      simp [_findEntries, DEFAULT_SECURITY_POLICY, List.filter_cons, hr, hc, hm]
    show (mkController (α := α) none).permitsSingle env role clazz method data
      = .ok true
    rw [permitsSingle_cases]
    have hden : (mkController (α := α) none).deniesSingle env role clazz method
        data = .ok false := by
      rw [deniesSingle_def]
      show _denies env ⟨role, clazz, method, data⟩
        (_findEntries (DEFAULT_SECURITY_POLICY α) role clazz method) = .ok false
      rw [hfind]
      rfl
    rw [hden]
    show _permits env ⟨role, clazz, method, data⟩
      (_findEntries (DEFAULT_SECURITY_POLICY α) role clazz method) = .ok true
    rw [hfind]
    rfl
  · intro role' clazz' method' data'
    show _denies env ⟨role', clazz', method', data'⟩
      (_findEntries (DEFAULT_SECURITY_POLICY α) role' clazz' method') = .ok false
    simp only [_findEntries, DEFAULT_SECURITY_POLICY, List.filter_cons,
      List.filter_nil]
    split <;> rfl

/-- C6 witness: under the default policy, `permits({role: "anything", clazz:
"Any", method: "any"})` is `true` and the corresponding `denies` is `false`. -/
theorem C6_default_allow_all_witness :
    (mkController (α := Unit) none).permits wEnv (.single "anything") "Any" "any"
      () = .ok true ∧
    (mkController (α := Unit) none).denies wEnv (.single "anything") "Any" "any"
      () = .ok false :=
  ⟨(C6_default_allow_all wEnv "anything" "Any" "any" ()
      (by decide) (by decide) (by decide)).1,
   (C6_default_allow_all wEnv "anything" "Any" "any" ()
      (by decide) (by decide) (by decide)).2 "anything" "Any" "any" ()⟩

/-- A policy whose single all-matching entry names its strategy by the string
reference `"mod"`, used in concrete counterexamples. -/
def strPolicy : List (Entry Unit) := [⟨allPass, allPass, allPass, .str "mod"⟩]

/-- A `require` environment in which every module exports the boolean literal
`true`, used in concrete counterexamples. -/
def boolEnv : Env Unit := fun _ => .bool true

/-- C8 counterexample: the claim's "iff" fails on a string strategy that
resolves to a boolean — here every matched entry's strategy resolves (through
`require`) to the boolean literal `true`, which per the claim is not an error
condition, yet `denies` raises the strategy-not-callable error, because after
string resolution the code accepts only functions. -/
theorem C8_counterexample :
    ((_findEntries strPolicy "r" "C" "m").all fun e =>
      isBoolLit (resolveStrategy boolEnv e.strategy)
        || isFn (resolveStrategy boolEnv e.strategy)) = true ∧
    (MethodAccessController.mk strPolicy).denies boolEnv (.single "r") "C" "m" ()
      = .error () := by decide

/-- C8 (amended): a single-role call to `permits` or `denies` raises the
strategy-not-callable error iff the interrogation reaches (every earlier
matched entry being passed over as non-decisive) a matched entry whose
strategy is not a boolean literal and does not resolve to a callable — so a
string reference resolving to any non-function value, boolean included,
raises; the error propagates to the caller with no boolean decision, and in
`permits` the permit-mode interrogation can raise only when the deny-mode
interrogation returned `false`. -/
theorem C8_strategy_error_characterization (c : MethodAccessController α)
    (env : Env α) (r clazz method : String) (data : α) :
    (c.denies env (.single r) clazz method data = .error () ↔
      ∃ pre e post, _findEntries c.policy r clazz method = pre ++ e :: post ∧
        (∀ e' ∈ pre, continuesEntry env ⟨r, clazz, method, data⟩ false e' = true) ∧
        badStrategy env e = true) ∧
    (c.permits env (.single r) clazz method data = .error () ↔
      ((∃ pre e post, _findEntries c.policy r clazz method = pre ++ e :: post ∧
          (∀ e' ∈ pre,
            continuesEntry env ⟨r, clazz, method, data⟩ false e' = true) ∧
          badStrategy env e = true) ∨
        (_denies env ⟨r, clazz, method, data⟩
            (_findEntries c.policy r clazz method) = .ok false ∧
          ∃ pre e post, _findEntries c.policy r clazz method = pre ++ e :: post ∧
            (∀ e' ∈ pre,
              continuesEntry env ⟨r, clazz, method, data⟩ true e' = true) ∧
            badStrategy env e = true))) := by
  have h1 := interrogate_error_iff env (⟨r, clazz, method, data⟩ : Request α)
    false (_findEntries c.policy r clazz method)
  have h2 := interrogate_error_iff env (⟨r, clazz, method, data⟩ : Request α)
    true (_findEntries c.policy r clazz method)
  constructor
  · exact h1
  · cases hd : c.deniesSingle env r clazz method data with
    | error e =>
      cases e
      have hl : c.permits env (.single r) clazz method data = .error () := by
        show c.permitsSingle env r clazz method data = .error ()
        rw [permitsSingle_cases, hd]
      rw [hl]
      exact iff_of_true rfl (Or.inl (h1.mp hd))
    | ok b =>
      have hd' : _denies env (⟨r, clazz, method, data⟩ : Request α)
          (_findEntries c.policy r clazz method) = .ok b := hd
      have hd2 : _interrogate env (⟨r, clazz, method, data⟩ : Request α) false
          (_findEntries c.policy r clazz method) = .ok b := hd
      cases b with
      | true =>
        have hl : c.permits env (.single r) clazz method data = .ok false := by
          show c.permitsSingle env r clazz method data = .ok false
          rw [permitsSingle_cases, hd]
        rw [hl]
        refine iff_of_false (by simp) ?_
        rintro (hex | ⟨hden, -⟩)
        · have hcontra := h1.mpr hex
          rw [hd2] at hcontra
          exact absurd hcontra (by simp)
        · rw [hd'] at hden
          exact absurd hden (by simp)
      | false =>
        have hl : c.permits env (.single r) clazz method data
            = _permits env ⟨r, clazz, method, data⟩
                (_findEntries c.policy r clazz method) := by
          show c.permitsSingle env r clazz method data = _
          rw [permitsSingle_cases, hd]
        rw [hl]
        constructor
        · intro herr
          exact Or.inr ⟨hd', h2.mp herr⟩
        · rintro (hex | ⟨-, hex⟩)
          · have hcontra := h1.mpr hex
            rw [hd2] at hcontra
            exact absurd hcontra (by simp)
          · exact h2.mpr hex

/-- C8 witness: a matched entry whose strategy is a non-boolean, non-callable
value makes `denies` raise the strategy-not-callable error. -/
theorem C8_strategy_error_characterization_witness :
    (MethodAccessController.mk [⟨allPass, allPass, allPass, Strategy.other⟩]).denies
      wEnv (.single "r") "C" "m" () = .error () :=
  ((C8_strategy_error_characterization
      ⟨[⟨allPass, allPass, allPass, Strategy.other⟩]⟩ wEnv "r" "C" "m" ()).1).mpr
    ⟨[], ⟨allPass, allPass, allPass, Strategy.other⟩, [], rfl, by simp, by decide⟩

/-- C9: only a literal `false` can deny — for single-role requests whose
matched entries all carry boolean-literal or function strategies, `denies`
returns `true` exactly when some matched entry with literal strategy `false`
is preceded only by non-stopping entries (literal `true`, or a function
returning `true`); moreover a function strategy returning `false` preceded
only by non-stopping entries forces `denies` to return `false`, shielding any
later literal `false` from being reached. -/
theorem C9_only_literal_false_denies (c : MethodAccessController α)
    (env : Env α) (r clazz method : String) (data : α)
    (h : ∀ e ∈ _findEntries c.policy r clazz method,
      (isBoolLit e.strategy || isFn e.strategy) = true) :
    (c.denies env (.single r) clazz method data = .ok true ↔
      ∃ pre e post, _findEntries c.policy r clazz method = pre ++ e :: post ∧
        e.strategy = .bool false ∧
        ∀ e' ∈ pre, continuesEntry env ⟨r, clazz, method, data⟩ false e' = true) ∧
    (∀ pre e post (f : Request α → Bool),
      _findEntries c.policy r clazz method = pre ++ e :: post →
      (∀ e' ∈ pre, continuesEntry env ⟨r, clazz, method, data⟩ false e' = true) →
      e.strategy = .fn f → f ⟨r, clazz, method, data⟩ = false →
      c.denies env (.single r) clazz method data = .ok false) := by
  constructor
  · exact interrogate_deny_ok_true_iff env ⟨r, clazz, method, data⟩ _ h
  · intro pre e post f hsplit hclean hfn hf
    show _interrogate env ⟨r, clazz, method, data⟩ false
      (_findEntries c.policy r clazz method) = .ok false
    rw [hsplit]
    exact interrogate_deny_fn_false_shield env ⟨r, clazz, method, data⟩
      pre e post f hclean hfn hf

/-- A policy with a function strategy returning `false` ahead of a literal
`false` entry, used in concrete witnesses. -/
def shieldPolicy : List (Entry Unit) := [entryFnFalse, entryFalse]

/-- C9 witness: a function returning `false` terminates the deny interrogation
with result `false` before the later literal `false` entry is reached. -/
theorem C9_only_literal_false_denies_witness :
    (MethodAccessController.mk shieldPolicy).denies wEnv (.single "a") "C" "m" ()
      = .ok false :=
  (C9_only_literal_false_denies ⟨shieldPolicy⟩ wEnv "a" "C" "m" () (by decide)).2
    [] entryFnFalse [entryFalse] (fun _ => false) rfl (by simp) rfl rfl

end MAC
